import Mathlib

/-!
# Verification of the maze search program (`maze.py`)

Shallow embedding of the search core of `Lecture_1/practice_project/maze.py`:
the `Node` record, the stack/queue frontiers, the `Maze` grid model with its
`neighbors` adjacency rule, the `solve` search loop, and the constructor
`Maze.__init__` that parses a textual grid description.

Conventions of the embedding:
* Python `(row, col)` integer pairs become `Cell := ℤ × ℤ`.
* The Python `set` of explored states becomes a `Finset Cell`.
* Raised exceptions become `Except String` errors carrying the literal
  message the source raises, or explicit outcome constructors in the
  search loop.
* The unbounded `while True` loop is run on explicit fuel; the development
  proves that fuel `height * width + 2` always suffices, so no behaviour is
  lost.
-/

/-- A maze coordinate `(row, col)`, exactly the Python tuple of two ints. -/
abbrev Cell : Type := ℤ × ℤ

/-- The `Node` class of the source: a state, the move that produced it and
a reference to the parent node (`parent = None` for the root). -/
inductive Node : Type where
  | root (s : Cell)
  | child (action : String) (s : Cell) (parent : Node)
deriving DecidableEq, Repr

/-- `node.state` of the source. -/
def Node.state : Node → Cell
  | .root s => s
  | .child _ s _ => s

/-- The `actions.append(node.action)` walk of the `while node.parent is not None`
loop in `Maze.solve`: actions from the node back to the root, in backward order
(the source reverses the list afterwards). -/
def collectActions : Node → List String
  | .root _ => []
  | .child a _ p => a :: collectActions p

/-- The `cells.append(node.state)` walk of the same loop: states from the node
back to the root, in backward order. -/
def collectCells : Node → List Cell
  | .root _ => []
  | .child _ s p => s :: collectCells p

/-- `StackFrontier.add` / `QueueFrontier.add`: `self.frontier.append(node)`. -/
def addNode (fr : List Node) (n : Node) : List Node := fr ++ [n]

/-- `contains_state`: `any(node.state == state for node in self.frontier)`. -/
def containsState (fr : List Node) (s : Cell) : Bool :=
  fr.any (fun n => decide (n.state = s))

/-- The states of the nodes held in a frontier, in frontier order. -/
def frontierStates (fr : List Node) : List Cell := fr.map Node.state

/-- The two frontier disciplines of the source: `StackFrontier` (LIFO) and
`QueueFrontier` (FIFO). -/
inductive Discipline where
  | stack
  | queue
deriving DecidableEq, Repr

/-- `remove` of either frontier class.  Both first raise
`Exception("empty frontier")` on an empty frontier; the stack variant pops
the last node (`self.frontier.pop()`, returning the remaining
`self.frontier[:-1]`), the queue variant takes `self.frontier[0]` and keeps
`self.frontier[1:]`. -/
def removeFrontier (d : Discipline) (fr : List Node) : Except String (Node × List Node) :=
  match d, fr with
  | _, [] => .error "empty frontier"
  | .stack, n :: ns => .ok ((n :: ns).getLast (List.cons_ne_nil n ns), (n :: ns).dropLast)
  | .queue, n :: ns => .ok (n, ns)

/-- The `Maze` grid model: `height`, `width`, the boolean wall table and the
`start`/`goal` cells, as set up by `Maze.__init__`.  Parsing the text file is
embedded separately (`mazeOfContents`); the search claims quantify over this
record directly, as the spec treats input parsing as an external collaborator. -/
structure Maze : Type where
  height : ℕ
  width : ℕ
  walls : List (List Bool)
  start : Cell
  goal : Cell
deriving DecidableEq, Repr

/-- `self.walls[r][c]` (only ever read behind the bounds guard of
`neighbors`, so the out-of-range default is never relevant there). -/
def Maze.wallAt (m : Maze) (c : Cell) : Bool :=
  (m.walls.getD c.1.toNat []).getD c.2.toNat false

/-- `0 <= r < self.height and 0 <= c < self.width`. -/
def Maze.InBounds (m : Maze) (c : Cell) : Prop :=
  0 ≤ c.1 ∧ c.1 < (m.height : ℤ) ∧ 0 ≤ c.2 ∧ c.2 < (m.width : ℤ)

instance (m : Maze) (c : Cell) : Decidable (m.InBounds c) := by
  unfold Maze.InBounds; infer_instance

/-- The `candidates` list of `Maze.neighbors`, in its fixed source order
up, down, left, right. -/
def candidates (s : Cell) : List (String × Cell) :=
  [("up", (s.1 - 1, s.2)),
   ("down", (s.1 + 1, s.2)),
   ("left", (s.1, s.2 - 1)),
   ("right", (s.1, s.2 + 1))]

/-- `Maze.neighbors`: keep each candidate move whose destination is in bounds
and not a wall, preserving the candidate order. -/
def Maze.neighbors (m : Maze) (s : Cell) : List (String × Cell) :=
  (candidates s).filter (fun p => decide (m.InBounds p.2) && !m.wallAt p.2)

/-- The mutable state of one run of `Maze.solve`: the frontier's node list,
`self.explored` and `self.num_explored`. -/
structure SearchState : Type where
  frontier : List Node
  explored : Finset Cell
  numExplored : ℕ
deriving DecidableEq

/-- The state `Maze.solve` sets up before its loop: the frontier holding only
the start node, an empty explored set, and a zero exploration counter. -/
def initState (m : Maze) : SearchState :=
  { frontier := [Node.root m.start], explored := ∅, numExplored := 0 }

/-- Terminal outcome of `Maze.solve`: either the recorded
`self.solution = (actions, cells)` or the `Exception("no solution")` raise. -/
inductive Outcome : Type where
  | failure
  | success (sol : List String × List Cell)
deriving DecidableEq, Repr

/-- The `for action, state in self.neighbors(node.state)` loop of `Maze.solve`:
each neighbor that is neither in the frontier (`contains_state`) nor in the
explored set is appended to the frontier as a child node of `nd`. -/
def expandChildren (nd : Node) (explored : Finset Cell) :
    List (String × Cell) → List Node → List Node
  | [], fr => fr
  | (a, s) :: rest, fr =>
      expandChildren nd explored rest
        (if containsState fr s = false ∧ s ∉ explored then addNode fr (Node.child a s nd)
         else fr)

/-- Result of one iteration of the `while True` loop of `Maze.solve`. -/
inductive StepRes : Type where
  | done (o : Outcome) (st : SearchState)
  | next (st : SearchState)

/-- One iteration of the `while True` loop of `Maze.solve`.  The source
checks `frontier.empty()` and raises `"no solution"`, otherwise calls
`frontier.remove()`; since `remove` errors exactly on the empty frontier, the
empty check and the removal are both modelled by the single `removeFrontier`
match.  After a removal the counter is incremented; a goal node is traced
back and both lists reversed; otherwise the state is marked explored and the
neighbors are expanded. -/
def solveStep (m : Maze) (d : Discipline) (st : SearchState) : StepRes :=
  match removeFrontier d st.frontier with
  | .error _ => .done .failure st
  | .ok (nd, rest) =>
      if nd.state = m.goal then
        .done (.success ((collectActions nd).reverse, (collectCells nd).reverse))
          { frontier := rest, explored := st.explored, numExplored := st.numExplored + 1 }
      else
        .next { frontier :=
                  expandChildren nd (insert nd.state st.explored) (m.neighbors nd.state) rest,
                explored := insert nd.state st.explored,
                numExplored := st.numExplored + 1 }

/-- The `while True` loop of `Maze.solve`, run on explicit fuel. -/
def run (m : Maze) (d : Discipline) : ℕ → SearchState → Option (Outcome × SearchState)
  | 0, _ => none
  | fuel + 1, st =>
      match solveStep m d st with
      | .done o st' => some (o, st')
      | .next st' => run m d fuel st'

/-- The loop of `Maze.solve` with the frontier discipline as a parameter, as
the spec's `solve(grid, frontierDiscipline)` describes it.  The fuel
`height * width + 2` is proved sufficient below (`run_isSome_of_inv`). -/
def Maze.solveWith (m : Maze) (d : Discipline) : Option (Outcome × SearchState) :=
  run m d (m.height * m.width + 2) (initState m)

/-- `Maze.solve` exactly as the source has it: the frontier is hard-coded to
`StackFrontier()` (line `frontier = StackFrontier()`); no discipline
parameter exists. -/
def Maze.solve (m : Maze) : Option (Outcome × SearchState) :=
  m.solveWith .stack

/-! ## Specification-side vocabulary

Reachability, path validity and grid well-formedness, used to state the
claims; these are the mathematical properties the spec talks about, not
translations of source code. -/

/-- `ReachIn m n c`: the cell `c` can be reached from `m.start` in exactly
`n` moves, each a `neighbors` transition. -/
inductive ReachIn (m : Maze) : ℕ → Cell → Prop where
  | zero : ReachIn m 0 m.start
  | succ {n : ℕ} {c : Cell} {a : String} {s : Cell} :
      ReachIn m n c → (a, s) ∈ m.neighbors c → ReachIn m (n + 1) s

/-- `c` is reachable from the start cell by some sequence of moves. -/
def Reach (m : Maze) (c : Cell) : Prop := ∃ n, ReachIn m n c

/-- Executable cumulative reachability: every cell reachable in at most `n`
moves appears in `reachList m n` (proved below); used to decide concrete
reachability facts. -/
def reachList (m : Maze) : ℕ → List Cell
  | 0 => [m.start]
  | n + 1 =>
      (reachList m n ++
        (reachList m n).flatMap (fun c => (m.neighbors c).map Prod.snd)).dedup

/-- `ValidPath m c cs`: starting from `c`, each successive cell of `cs` is
reached by a valid `neighbors` transition from its predecessor. -/
def ValidPath (m : Maze) : Cell → List Cell → Prop
  | _, [] => True
  | c, s :: rest => (∃ a, (a, s) ∈ m.neighbors c) ∧ ValidPath m s rest

/-- A parent chain actually produced by searching `m`: the root carries the
start state, and every child extends its parent by one `neighbors` move. -/
inductive ValidNode (m : Maze) : Node → Prop where
  | root : ValidNode m (Node.root m.start)
  | child {p : Node} {a : String} {s : Cell} :
      ValidNode m p → (a, s) ∈ m.neighbors p.state → ValidNode m (Node.child a s p)

/-- The Grid invariants of the spec's data model: positive dimensions, a
wall table of the declared shape, and distinct in-bounds non-wall start and
goal cells. -/
def WellFormed (m : Maze) : Prop :=
  0 < m.height ∧ 0 < m.width ∧
  m.walls.length = m.height ∧ (∀ row ∈ m.walls, row.length = m.width) ∧
  m.InBounds m.start ∧ m.InBounds m.goal ∧
  m.wallAt m.start = false ∧ m.wallAt m.goal = false ∧
  m.start ≠ m.goal

instance (m : Maze) : Decidable (WellFormed m) := by
  unfold WellFormed; infer_instance

/-! ## The constructor `Maze.__init__` on a textual grid description -/

/-- Python `str.splitlines()` for newline-separated text: splits at each
`'\n'` and does not yield a final empty line for a trailing newline. -/
def splitlinesAux (cur : List Char) : List Char → List (List Char)
  | [] => if cur.isEmpty then [] else [cur.reverse]
  | c :: cs =>
      if c = '\n' then cur.reverse :: splitlinesAux [] cs
      else splitlinesAux (c :: cur) cs

/-- `contents.splitlines()` of the source. -/
def splitlines (cs : List Char) : List (List Char) := splitlinesAux [] cs

/-- The wall classification of `Maze.__init__`: any character other than the
start marker `'A'`, the goal marker `'B'` and the blank `' '` is a wall. -/
def isWallChar (c : Char) : Bool := c ≠ 'A' && c ≠ 'B' && c ≠ ' '

/-- One row of the wall table: for `j in range(width)`, read `line[j]` and
classify it with `isWallChar`; the `except IndexError` branch records an
open cell (`false`) for a missing column, which is the `getD false`
default. -/
def buildRow (width : ℕ) (line : List Char) : List Bool :=
  (List.range width).map (fun j => ((line.get? j).map isWallChar).getD false)

/-- The coordinates at which the scan of `Maze.__init__` finds the marker
character, scanning `i in range(height)`, `j in range(width)`; positions
outside a row (the `IndexError` branch) are skipped, like the source. -/
def findMarker (lines : List (List Char)) (width : ℕ) (mark : Char) : Option Cell :=
  (List.range lines.length).findSome? (fun i =>
    ((List.range width).find? (fun j => decide ((lines.getD i []).get? j = some mark))).map
      (fun j => ((i : ℤ), (j : ℤ))))

/-- The attributes `Maze.__init__` assigns.  `start?`/`goal?` are `none`
exactly when the scan never hits the marker (the source then simply leaves
`self.start`/`self.goal` unassigned). -/
structure ParsedMaze : Type where
  height : ℕ
  width : ℕ
  walls : List (List Bool)
  start? : Option Cell
  goal? : Option Cell
deriving DecidableEq, Repr

/-- `Maze.__init__` on the file contents: validate that exactly one `'A'`
and exactly one `'B'` occur (raising the source's messages otherwise), then
split into lines, take `height = len(contents)`, `width = len(contents[0])`,
and build the wall table row by row. -/
def mazeOfContents (cs : List Char) : Except String ParsedMaze :=
  if cs.count 'A' ≠ 1 then .error "maze must have exactly one start point"
  else if cs.count 'B' ≠ 1 then .error "maze must have exactly one goal"
  else
    let lines := splitlines cs
    let width := (lines.headD []).length
    .ok { height := lines.length
          width := width
          walls := lines.map (fun line => buildRow width line)
          start? := findMarker lines width 'A'
          goal? := findMarker lines width 'B' }

/-! ## Basic lemmas about the embedded operations -/

theorem containsState_iff (fr : List Node) (s : Cell) :
    containsState fr s = true ↔ s ∈ frontierStates fr := by
  simp only [containsState, List.any_eq_true, decide_eq_true_eq, frontierStates, List.mem_map]

theorem removeFrontier_error {d : Discipline} {fr : List Node} {e : String}
    (h : removeFrontier d fr = .error e) : fr = [] := by
  cases d <;> cases fr <;> simp_all [removeFrontier]

theorem removeFrontier_perm {d : Discipline} {fr rest : List Node} {nd : Node}
    (h : removeFrontier d fr = .ok (nd, rest)) : fr.Perm (nd :: rest) := by
  cases d with
  | stack =>
    cases fr with
    | nil => simp [removeFrontier] at h
    | cons x xs =>
      simp only [removeFrontier, Except.ok.injEq, Prod.mk.injEq] at h
      obtain ⟨h1, h2⟩ := h
      have hx : x :: xs = rest ++ [nd] := by
        conv_lhs => rw [← List.dropLast_append_getLast (List.cons_ne_nil x xs)]
        rw [h1, h2]
      rw [hx]
      exact List.perm_append_singleton _ _
  | queue =>
    cases fr with
    | nil => simp [removeFrontier] at h
    | cons x xs =>
      simp only [removeFrontier, Except.ok.injEq, Prod.mk.injEq] at h
      rw [h.1, h.2]

theorem removeFrontier_mem {d : Discipline} {fr rest : List Node} {nd : Node}
    (h : removeFrontier d fr = .ok (nd, rest)) : nd ∈ fr :=
  (removeFrontier_perm h).symm.subset (List.mem_cons_self _ _)

theorem mem_neighbors_iff {m : Maze} {c : Cell} {p : String × Cell} :
    p ∈ m.neighbors c ↔ p ∈ candidates c ∧ m.InBounds p.2 ∧ m.wallAt p.2 = false := by
  simp [Maze.neighbors, List.mem_filter, Bool.and_eq_true, decide_eq_true_eq,
    Bool.not_eq_true', and_assoc]

theorem validNode_reachIn {m : Maze} {nd : Node} (h : ValidNode m nd) :
    ReachIn m (collectActions nd).length nd.state := by
  induction h with
  | root => exact ReachIn.zero
  | child hp hmem ih => exact ReachIn.succ ih hmem

theorem reach_of_validNode {m : Maze} {nd : Node} (h : ValidNode m nd) :
    Reach m nd.state :=
  ⟨_, validNode_reachIn h⟩

theorem collect_length (nd : Node) : (collectActions nd).length = (collectCells nd).length := by
  induction nd <;> simp [collectActions, collectCells, *]

theorem getLastD_append_single (xs : List Cell) (d s : Cell) :
    (xs ++ [s]).getLastD d = s := by
  induction xs generalizing d with
  | nil => rfl
  | cons x xs ih => rw [List.cons_append, List.getLastD_cons]; exact ih x

theorem validPath_snoc {m : Maze} {a : String} {s : Cell} :
    ∀ (xs : List Cell) (c0 : Cell), ValidPath m c0 xs →
      (a, s) ∈ m.neighbors (xs.getLastD c0) → ValidPath m c0 (xs ++ [s]) := by
  intro xs
  induction xs with
  | nil => intro c0 _ h; exact ⟨⟨a, h⟩, trivial⟩
  | cons x xs' ih =>
    intro c0 hv h
    obtain ⟨hadj, hrest⟩ := hv
    rw [List.getLastD_cons] at h
    exact ⟨hadj, ih x hrest h⟩

theorem validNode_path {m : Maze} {nd : Node} (h : ValidNode m nd) :
    ValidPath m m.start (collectCells nd).reverse ∧
      ((collectCells nd).reverse).getLastD m.start = nd.state := by
  induction h with
  | root => exact ⟨trivial, rfl⟩
  | @child p a s hp hmem ih =>
    obtain ⟨hvp, hlast⟩ := ih
    refine ⟨?_, ?_⟩
    · have hstep : (a, s) ∈ m.neighbors (((collectCells p).reverse).getLastD m.start) := by
        rw [hlast]; exact hmem
      have := validPath_snoc (m := m) ((collectCells p).reverse) m.start hvp hstep
      simpa [collectCells] using this
    · simp [collectCells, Node.state, getLastD_append_single]

/-! ## Lemmas about `expandChildren` -/

theorem expandChildren_cons_add {nd : Node} {ex : Finset Cell} {a : String} {s : Cell}
    {rest : List (String × Cell)} {fr : List Node}
    (hc : containsState fr s = false ∧ s ∉ ex) :
    expandChildren nd ex ((a, s) :: rest) fr
      = expandChildren nd ex rest (addNode fr (Node.child a s nd)) := by
  simp [expandChildren, if_pos hc]

theorem expandChildren_cons_skip {nd : Node} {ex : Finset Cell} {a : String} {s : Cell}
    {rest : List (String × Cell)} {fr : List Node}
    (hc : ¬(containsState fr s = false ∧ s ∉ ex)) :
    expandChildren nd ex ((a, s) :: rest) fr = expandChildren nd ex rest fr := by
  simp [expandChildren, if_neg hc]

theorem expandChildren_append (nd : Node) (ex : Finset Cell) :
    ∀ (cands : List (String × Cell)) (fr : List Node),
      ∃ new, expandChildren nd ex cands fr = fr ++ new := by
  intro cands
  induction cands with
  | nil => exact fun fr => ⟨[], by simp [expandChildren]⟩
  | cons p rest ih =>
    intro fr
    obtain ⟨a, s⟩ := p
    by_cases hc : containsState fr s = false ∧ s ∉ ex
    · obtain ⟨new, hnew⟩ := ih (addNode fr (Node.child a s nd))
      refine ⟨Node.child a s nd :: new, ?_⟩
      rw [expandChildren_cons_add hc, hnew]
      simp [addNode]
    · obtain ⟨new, hnew⟩ := ih fr
      exact ⟨new, by rw [expandChildren_cons_skip hc, hnew]⟩

theorem expandChildren_states_subset (nd : Node) (ex : Finset Cell)
    (cands : List (String × Cell)) (fr : List Node) :
    frontierStates fr ⊆ frontierStates (expandChildren nd ex cands fr) := by
  obtain ⟨new, hnew⟩ := expandChildren_append nd ex cands fr
  rw [hnew]
  simp only [frontierStates, List.map_append]
  exact List.subset_append_left _ _

theorem mem_expandChildren {nd : Node} {ex : Finset Cell} :
    ∀ {cands : List (String × Cell)} {fr : List Node} {n : Node},
      n ∈ expandChildren nd ex cands fr →
      n ∈ fr ∨ ∃ a s, (a, s) ∈ cands ∧ n = Node.child a s nd ∧ s ∉ ex := by
  intro cands
  induction cands with
  | nil => intro fr n h; exact Or.inl h
  | cons p rest ih =>
    intro fr n h
    obtain ⟨a, s⟩ := p
    by_cases hc : containsState fr s = false ∧ s ∉ ex
    · rw [expandChildren_cons_add hc] at h
      rcases ih h with h' | ⟨a', s', hmem, hn, hs⟩
      · rcases List.mem_append.1 h' with h'' | h''
        · exact Or.inl h''
        · rcases List.mem_singleton.1 h'' with rfl
          exact Or.inr ⟨a, s, List.mem_cons_self _ _, rfl, hc.2⟩
      · exact Or.inr ⟨a', s', List.mem_cons_of_mem _ hmem, hn, hs⟩
    · rw [expandChildren_cons_skip hc] at h
      rcases ih h with h' | ⟨a', s', hmem, hn, hs⟩
      · exact Or.inl h'
      · exact Or.inr ⟨a', s', List.mem_cons_of_mem _ hmem, hn, hs⟩

theorem expandChildren_covers (nd : Node) (ex : Finset Cell) :
    ∀ {cands : List (String × Cell)} (fr : List Node) {a : String} {s : Cell},
      (a, s) ∈ cands →
      s ∈ ex ∨ s ∈ frontierStates (expandChildren nd ex cands fr) := by
  intro cands
  induction cands with
  | nil => intro fr a s h; simp at h
  | cons p rest ih =>
    intro fr a s h
    obtain ⟨a0, s0⟩ := p
    rcases List.mem_cons.1 h with heq | hrest
    · injection heq with h1 h2
      subst h1; subst h2
      by_cases hc : containsState fr s = false ∧ s ∉ ex
      · rw [expandChildren_cons_add hc]
        right
        apply expandChildren_states_subset
        simp [addNode, frontierStates, Node.state]
      · rw [expandChildren_cons_skip hc]
        by_cases hx : s ∈ ex
        · exact Or.inl hx
        · right
          have hcs : containsState fr s = true := by
            rcases Bool.eq_false_or_eq_true (containsState fr s) with hb | hb
            · exact hb
            · exact absurd ⟨hb, hx⟩ hc
          exact expandChildren_states_subset nd ex rest fr ((containsState_iff fr s).1 hcs)
    · by_cases hc : containsState fr s0 = false ∧ s0 ∉ ex
      · rw [expandChildren_cons_add hc]
        exact ih _ hrest
      · rw [expandChildren_cons_skip hc]
        exact ih _ hrest

theorem expandChildren_nodup {nd : Node} {ex : Finset Cell} :
    ∀ {cands : List (String × Cell)} {fr : List Node},
      (frontierStates fr).Nodup → (frontierStates (expandChildren nd ex cands fr)).Nodup := by
  intro cands
  induction cands with
  | nil => intro fr h; exact h
  | cons p rest ih =>
    intro fr h
    obtain ⟨a, s⟩ := p
    by_cases hc : containsState fr s = false ∧ s ∉ ex
    · rw [expandChildren_cons_add hc]
      apply ih
      have hs : s ∉ frontierStates fr := by
        intro hmem
        rw [← containsState_iff] at hmem
        rw [hc.1] at hmem
        exact Bool.false_ne_true hmem
      have hfs : frontierStates (addNode fr (Node.child a s nd))
          = frontierStates fr ++ [s] := by
        simp [addNode, frontierStates, Node.state]
      rw [hfs]
      simp [List.nodup_append, h, hs]
    · rw [expandChildren_cons_skip hc]
      exact ih h

theorem expandChildren_disj {nd : Node} {ex : Finset Cell}
    {cands : List (String × Cell)} {fr : List Node}
    (hfr : ∀ n ∈ fr, n.state ∉ ex) :
    ∀ n ∈ expandChildren nd ex cands fr, n.state ∉ ex := by
  intro n hn
  rcases mem_expandChildren hn with h | ⟨a, s, _, rfl, hs⟩
  · exact hfr n h
  · exact hs

/-! ## The loop invariant of `Maze.solve`

After the initialization and after every completed loop iteration the search
state satisfies `SearchInv`: frontier states are pairwise distinct and
disjoint from the explored set (the double bookkeeping of `contains_state`
and `self.explored`), every frontier node carries a valid parent chain from
the start, the explored set contains only reachable states and is
neighbor-closed into `explored ∪ frontier`, the start state is accounted
for, the exploration counter counts the explored set, and the goal state is
never marked explored (a goal node returns instead). -/
structure SearchInv (m : Maze) (st : SearchState) : Prop where
  nodup : (frontierStates st.frontier).Nodup
  disj : ∀ n ∈ st.frontier, n.state ∉ st.explored
  valid : ∀ n ∈ st.frontier, ValidNode m n
  reach_explored : ∀ c ∈ st.explored, Reach m c
  closed : ∀ c ∈ st.explored, ∀ a s, (a, s) ∈ m.neighbors c →
    s ∈ st.explored ∨ s ∈ frontierStates st.frontier
  start_mem : m.start ∈ st.explored ∨ m.start ∈ frontierStates st.frontier
  count : st.numExplored = st.explored.card
  goal_not : m.goal ∉ st.explored

theorem searchInv_init (m : Maze) : SearchInv m (initState m) :=
  { nodup := by simp [initState, frontierStates]
    disj := by simp [initState]
    valid := by
      intro n hn
      rcases List.mem_singleton.1 (by simpa [initState] using hn) with rfl
      exact ValidNode.root
    reach_explored := by simp [initState]
    closed := by simp [initState]
    start_mem := Or.inr (by simp [initState, frontierStates, Node.state])
    count := by simp [initState]
    goal_not := by simp [initState] }

theorem solveStep_next_elim {m : Maze} {d : Discipline} {st st' : SearchState}
    (h : solveStep m d st = .next st') :
    ∃ nd rest, removeFrontier d st.frontier = .ok (nd, rest) ∧ nd.state ≠ m.goal ∧
      st' = { frontier :=
                expandChildren nd (insert nd.state st.explored) (m.neighbors nd.state) rest,
              explored := insert nd.state st.explored,
              numExplored := st.numExplored + 1 } := by
  unfold solveStep at h
  cases hrm : removeFrontier d st.frontier with
  | error e => rw [hrm] at h; simp at h
  | ok p =>
    obtain ⟨nd, rest⟩ := p
    rw [hrm] at h
    by_cases hg : nd.state = m.goal
    · simp [hg] at h
    · simp only [hg, if_false, StepRes.next.injEq, reduceIte] at h
      exact ⟨nd, rest, rfl, hg, h.symm⟩

theorem solveStep_done_elim {m : Maze} {d : Discipline} {st stF : SearchState} {o : Outcome}
    (h : solveStep m d st = .done o stF) :
    (st.frontier = [] ∧ o = .failure ∧ stF = st) ∨
      (∃ nd rest, removeFrontier d st.frontier = .ok (nd, rest) ∧ nd.state = m.goal ∧
        o = .success ((collectActions nd).reverse, (collectCells nd).reverse) ∧
        stF = { frontier := rest, explored := st.explored,
                numExplored := st.numExplored + 1 }) := by
  unfold solveStep at h
  cases hrm : removeFrontier d st.frontier with
  | error e =>
    rw [hrm] at h
    simp only [StepRes.done.injEq] at h
    exact Or.inl ⟨removeFrontier_error hrm, h.1.symm, h.2.symm⟩
  | ok p =>
    obtain ⟨nd, rest⟩ := p
    rw [hrm] at h
    by_cases hg : nd.state = m.goal
    · simp only [hg, if_true, StepRes.done.injEq, reduceIte] at h
      exact Or.inr ⟨nd, rest, rfl, hg, h.1.symm, h.2.symm⟩
    · simp [hg] at h

theorem searchInv_step {m : Maze} {d : Discipline} {st st' : SearchState}
    (hinv : SearchInv m st) (h : solveStep m d st = .next st') : SearchInv m st' := by
  obtain ⟨nd, rest, hrm, hg, rfl⟩ := solveStep_next_elim h
  have hperm : st.frontier.Perm (nd :: rest) := removeFrontier_perm hrm
  have hnd_mem : nd ∈ st.frontier := removeFrontier_mem hrm
  have hnd_valid : ValidNode m nd := hinv.valid nd hnd_mem
  have hstates_perm : (frontierStates st.frontier).Perm (nd.state :: frontierStates rest) := by
    simpa [frontierStates] using hperm.map Node.state
  have hnodup_cons : (nd.state :: frontierStates rest).Nodup :=
    hstates_perm.nodup_iff.1 hinv.nodup
  have hnd_notin_rest : nd.state ∉ frontierStates rest := (List.nodup_cons.1 hnodup_cons).1
  have hnodup_rest : (frontierStates rest).Nodup := (List.nodup_cons.1 hnodup_cons).2
  have hrest_sub : ∀ n ∈ rest, n ∈ st.frontier := fun n hn =>
    hperm.symm.subset (List.mem_cons_of_mem _ hn)
  have hrest_disj : ∀ n ∈ rest, n.state ∉ insert nd.state st.explored := by
    intro n hn
    rw [Finset.mem_insert]
    rintro (heq | hmem)
    · exact hnd_notin_rest (heq ▸ List.mem_map_of_mem Node.state hn)
    · exact hinv.disj n (hrest_sub n hn) hmem
  refine ⟨?_, ?_, ?_, ?_, ?_, ?_, ?_, ?_⟩
  · exact expandChildren_nodup hnodup_rest
  · exact expandChildren_disj hrest_disj
  · intro n hn
    rcases mem_expandChildren hn with h' | ⟨a, s, hmem, rfl, _⟩
    · exact hinv.valid n (hrest_sub n h')
    · exact ValidNode.child hnd_valid hmem
  · intro c hc
    rcases Finset.mem_insert.1 hc with rfl | hc'
    · exact reach_of_validNode hnd_valid
    · exact hinv.reach_explored c hc'
  · intro c hc a s hmem
    rcases Finset.mem_insert.1 hc with rfl | hc'
    · rcases expandChildren_covers nd (insert nd.state st.explored) rest hmem with h' | h'
      · exact Or.inl h'
      · exact Or.inr h'
    · rcases hinv.closed c hc' a s hmem with h' | h'
      · exact Or.inl (Finset.mem_insert_of_mem h')
      · have hcons : s ∈ nd.state :: frontierStates rest := hstates_perm.subset h'
        rcases List.mem_cons.1 hcons with rfl | h''
        · exact Or.inl (Finset.mem_insert_self _ _)
        · exact Or.inr (expandChildren_states_subset _ _ _ _ h'')
  · rcases hinv.start_mem with h' | h'
    · exact Or.inl (Finset.mem_insert_of_mem h')
    · have hcons : m.start ∈ nd.state :: frontierStates rest := hstates_perm.subset h'
      rcases List.mem_cons.1 hcons with heq | h''
      · exact Or.inl (heq ▸ Finset.mem_insert_self _ _)
      · exact Or.inr (expandChildren_states_subset _ _ _ _ h'')
  · have hnotmem : nd.state ∉ st.explored := hinv.disj nd hnd_mem
    simp [hinv.count, Finset.card_insert_of_not_mem hnotmem]
  · rw [Finset.mem_insert]
    rintro (heq | hmem)
    · exact hg heq.symm
    · exact hinv.goal_not hmem

/-! ## Termination of the search loop -/

/-- The finite set of in-bounds cells of the grid. -/
def cellsFinset (m : Maze) : Finset Cell :=
  Finset.Icc (0 : ℤ) ((m.height : ℤ) - 1) ×ˢ Finset.Icc (0 : ℤ) ((m.width : ℤ) - 1)

theorem inBounds_mem_cellsFinset {m : Maze} {c : Cell} :
    m.InBounds c ↔ c ∈ cellsFinset m := by
  obtain ⟨r, co⟩ := c
  simp only [Maze.InBounds, cellsFinset, Finset.mem_product, Finset.mem_Icc]
  omega

theorem cellsFinset_card (m : Maze) : (cellsFinset m).card = m.height * m.width := by
  simp only [cellsFinset, Finset.card_product, Int.card_Icc]
  have h1 : ((m.height : ℤ) - 1 + 1 - 0).toNat = m.height := by omega
  have h2 : ((m.width : ℤ) - 1 + 1 - 0).toNat = m.width := by omega
  rw [h1, h2]

theorem validNode_state_mem {m : Maze} {nd : Node} (h : ValidNode m nd) :
    nd.state ∈ insert m.start (cellsFinset m) := by
  cases h with
  | root => exact Finset.mem_insert_self _ _
  | child hp hmem =>
    have hin := (mem_neighbors_iff.1 hmem).2.1
    exact Finset.mem_insert_of_mem (inBounds_mem_cellsFinset.1 hin)

/-- Decreasing measure of the loop: the in-bounds cells (plus the start
cell) not yet explored. -/
def searchMeasure (m : Maze) (st : SearchState) : ℕ :=
  ((insert m.start (cellsFinset m)) \ st.explored).card

theorem searchMeasure_decrease {m : Maze} {d : Discipline} {st st' : SearchState}
    (hinv : SearchInv m st) (h : solveStep m d st = .next st') :
    searchMeasure m st' < searchMeasure m st := by
  obtain ⟨nd, rest, hrm, hg, rfl⟩ := solveStep_next_elim h
  have hnd_mem : nd ∈ st.frontier := removeFrontier_mem hrm
  have hA : nd.state ∈ insert m.start (cellsFinset m) :=
    validNode_state_mem (hinv.valid nd hnd_mem)
  have hE : nd.state ∉ st.explored := hinv.disj nd hnd_mem
  unfold searchMeasure
  rw [show (insert m.start (cellsFinset m)) \ insert nd.state st.explored
      = ((insert m.start (cellsFinset m)) \ st.explored).erase nd.state from
    Finset.sdiff_insert _ _ _]
  exact Finset.card_erase_lt_of_mem (Finset.mem_sdiff.2 ⟨hA, hE⟩)

theorem run_isSome {m : Maze} {d : Discipline} :
    ∀ (fuel : ℕ) (st : SearchState), SearchInv m st → searchMeasure m st < fuel →
      (run m d fuel st).isSome := by
  intro fuel
  induction fuel with
  | zero => intro st _ hlt; omega
  | succ fuel ih =>
    intro st hinv hlt
    cases hstep : solveStep m d st with
    | done o st' => simp [run, hstep]
    | next st' =>
      rw [run]
      rw [hstep]
      exact ih st' (searchInv_step hinv hstep)
        (Nat.lt_of_lt_of_le (searchMeasure_decrease hinv hstep) (by omega))

theorem solveWith_isSome (m : Maze) (d : Discipline) :
    ∃ o stF, m.solveWith d = some (o, stF) := by
  have hm : searchMeasure m (initState m) < m.height * m.width + 2 := by
    have h1 : searchMeasure m (initState m)
        ≤ (insert m.start (cellsFinset m)).card := by
      unfold searchMeasure
      exact Finset.card_le_card (Finset.sdiff_subset)
    have h2 : (insert m.start (cellsFinset m)).card ≤ (cellsFinset m).card + 1 :=
      Finset.card_insert_le _ _
    have h3 := cellsFinset_card m
    omega
  have h := run_isSome (m := m) (d := d) (m.height * m.width + 2) (initState m)
    (searchInv_init m) hm
  rw [Maze.solveWith]
  obtain ⟨⟨o, stF⟩, hr⟩ := Option.isSome_iff_exists.1 h
  exact ⟨o, stF, hr⟩

/-! ## What a completed run guarantees -/

theorem run_spec {m : Maze} {d : Discipline} :
    ∀ {fuel : ℕ} {st stF : SearchState} {o : Outcome}, SearchInv m st →
      run m d fuel st = some (o, stF) →
      (o = .failure → stF.frontier = [] ∧ SearchInv m stF) ∧
      (∀ acts cells, o = .success (acts, cells) →
        ∃ nd, ValidNode m nd ∧ nd.state = m.goal ∧
          acts = (collectActions nd).reverse ∧ cells = (collectCells nd).reverse) := by
  intro fuel
  induction fuel with
  | zero => intro st stF o _ h; simp [run] at h
  | succ fuel ih =>
    intro st stF o hinv h
    rw [run] at h
    cases hstep : solveStep m d st with
    | done o' st' =>
      rw [hstep] at h
      simp only [Option.some.injEq, Prod.mk.injEq] at h
      obtain ⟨rfl, rfl⟩ := h
      rcases solveStep_done_elim hstep with ⟨hfr, rfl, rfl⟩ |
        ⟨nd, rest, hrm, hg, rfl, rfl⟩
      · exact ⟨fun _ => ⟨hfr, hinv⟩, fun acts cells hS => by simp at hS⟩
      · refine ⟨fun hF => by simp at hF, ?_⟩
        intro acts cells hS
        simp only [Outcome.success.injEq, Prod.mk.injEq] at hS
        exact ⟨nd, hinv.valid nd (removeFrontier_mem hrm), hg, hS.1.symm, hS.2.symm⟩
    | next st' =>
      rw [hstep] at h
      exact ih (searchInv_step hinv hstep) h

/-- When the loop ends with an empty frontier, the explored set contains
every reachable cell: it contains the start and is closed under `neighbors`. -/
theorem reach_subset_explored {m : Maze} {st : SearchState} (hinv : SearchInv m st)
    (hfr : st.frontier = []) : ∀ {c : Cell}, Reach m c → c ∈ st.explored := by
  have hempty : frontierStates st.frontier = [] := by rw [hfr]; rfl
  intro c hc
  obtain ⟨n, hn⟩ := hc
  induction hn with
  | zero =>
    rcases hinv.start_mem with h | h
    · exact h
    · rw [hempty] at h; cases h
  | succ hr hmem ih =>
    rcases hinv.closed _ ih _ _ hmem with h | h
    · exact h
    · rw [hempty] at h; cases h

/-- Master lemma for a successful search: on any grid whose goal is
reachable, `solveWith` succeeds (for either discipline) and the recorded
solution is the reversed trace of a valid goal node. -/
theorem solveWith_success_node {m : Maze} {d : Discipline} (h : Reach m m.goal) :
    ∃ nd stF,
      m.solveWith d
        = some (.success ((collectActions nd).reverse, (collectCells nd).reverse), stF) ∧
      ValidNode m nd ∧ nd.state = m.goal := by
  obtain ⟨o, stF, hr⟩ := solveWith_isSome m d
  have hspec := run_spec (searchInv_init m) (by rw [Maze.solveWith] at hr; exact hr)
  cases o with
  | failure =>
    obtain ⟨hfr, hinvF⟩ := hspec.1 rfl
    exact absurd (reach_subset_explored hinvF hfr h) hinvF.goal_not
  | success sol =>
    obtain ⟨acts, cells⟩ := sol
    obtain ⟨nd, hvalid, hgoal, rfl, rfl⟩ := hspec.2 acts cells rfl
    exact ⟨nd, stF, hr, hvalid, hgoal⟩

/-- Master lemma for an exhausted search: on any grid whose goal is
unreachable, `solveWith` fails (for either discipline) and the final state
has an empty frontier, an explored set equal to the set of reachable cells,
and a counter equal to its size. -/
theorem solveWith_failure_node {m : Maze} {d : Discipline} (h : ¬ Reach m m.goal) :
    ∃ stF, m.solveWith d = some (.failure, stF) ∧
      stF.frontier = [] ∧
      stF.numExplored = stF.explored.card ∧
      (∀ c : Cell, c ∈ stF.explored ↔ Reach m c) ∧
      m.start ∈ stF.explored := by
  obtain ⟨o, stF, hr⟩ := solveWith_isSome m d
  have hspec := run_spec (searchInv_init m) (by rw [Maze.solveWith] at hr; exact hr)
  cases o with
  | success sol =>
    obtain ⟨acts, cells⟩ := sol
    obtain ⟨nd, hvalid, hgoal, _, _⟩ := hspec.2 acts cells rfl
    exact absurd (hgoal ▸ reach_of_validNode hvalid) h
  | failure =>
    obtain ⟨hfr, hinvF⟩ := hspec.1 rfl
    have hstart : Reach m m.start := ⟨0, ReachIn.zero⟩
    refine ⟨stF, hr, hfr, hinvF.count, ?_, reach_subset_explored hinvF hfr hstart⟩
    intro c
    exact ⟨hinvF.reach_explored c, reach_subset_explored hinvF hfr⟩

/-! ## The state after each loop iteration -/

/-- The search state after `k` completed (non-terminal) loop iterations
starting from `st`; `none` when the run terminates in fewer than `k`
iterations. -/
def iterState (m : Maze) (d : Discipline) : ℕ → SearchState → Option SearchState
  | 0, st => some st
  | k + 1, st =>
      match solveStep m d st with
      | .done _ _ => none
      | .next st' => iterState m d k st'

/-- The search state of `Maze.solve` (with the given discipline) after `k`
completed loop iterations. -/
def stateAfterIters (m : Maze) (d : Discipline) (k : ℕ) : Option SearchState :=
  iterState m d k (initState m)

theorem iterState_inv {m : Maze} {d : Discipline} :
    ∀ {k : ℕ} {st st' : SearchState}, SearchInv m st →
      iterState m d k st = some st' → SearchInv m st' := by
  intro k
  induction k with
  | zero => intro st st' hinv h; cases h; exact hinv
  | succ k ih =>
    intro st st' hinv h
    rw [iterState] at h
    cases hstep : solveStep m d st with
    | done o st'' => rw [hstep] at h; cases h
    | next st'' =>
      rw [hstep] at h
      exact ih (searchInv_step hinv hstep) h

theorem iterState_add (m : Maze) (d : Discipline) :
    ∀ (j l : ℕ) (st : SearchState),
      iterState m d (j + l) st = (iterState m d j st).bind (iterState m d l) := by
  intro j
  induction j with
  | zero => intro l st; simp [iterState]
  | succ j ih =>
    intro l st
    have hadd : j + 1 + l = (j + l) + 1 := by omega
    rw [hadd]
    cases hstep : solveStep m d st with
    | done o st'' => simp [iterState, hstep]
    | next st' => simp [iterState, hstep, ih]

theorem iterState_mono {m : Maze} {d : Discipline} {k : ℕ} {st stk : SearchState}
    (h : iterState m d k st = some stk) :
    ∀ j ≤ k, ∃ stj, iterState m d j st = some stj := by
  intro j hj
  have hsplit : k = j + (k - j) := by omega
  rw [hsplit, iterState_add] at h
  cases hij : iterState m d j st with
  | none => rw [hij] at h; cases h
  | some stj => exact ⟨stj, rfl⟩

theorem solveStep_explored_subset {m : Maze} {d : Discipline} {st st' : SearchState}
    (h : solveStep m d st = .next st') : st.explored ⊆ st'.explored := by
  obtain ⟨nd, rest, _, _, rfl⟩ := solveStep_next_elim h
  exact Finset.subset_insert _ _

theorem iterState_explored_subset {m : Maze} {d : Discipline} :
    ∀ {l : ℕ} {st st' : SearchState}, iterState m d l st = some st' →
      st.explored ⊆ st'.explored := by
  intro l
  induction l with
  | zero => intro st st' h; cases h; exact Finset.Subset.refl _
  | succ l ih =>
    intro st st' h
    rw [iterState] at h
    cases hstep : solveStep m d st with
    | done o st'' => rw [hstep] at h; cases h
    | next st'' =>
      rw [hstep] at h
      exact (solveStep_explored_subset hstep).trans (ih h)

/-- The state popped in the iteration leading from `st` to the next state is
recorded in the next state's explored set. -/
theorem solveStep_popped_explored {m : Maze} {d : Discipline} {st st' : SearchState}
    {nd : Node} {rest : List Node}
    (h : solveStep m d st = .next st')
    (hrm : removeFrontier d st.frontier = .ok (nd, rest)) :
    nd.state ∈ st'.explored := by
  obtain ⟨nd', rest', hrm', _, rfl⟩ := solveStep_next_elim h
  rw [hrm] at hrm'
  simp only [Except.ok.injEq, Prod.mk.injEq] at hrm'
  rw [← hrm'.1]
  exact Finset.mem_insert_self _ _

/-! ## Executable reachability -/

theorem reachList_subset_succ (m : Maze) (n : ℕ) :
    reachList m n ⊆ reachList m (n + 1) := by
  intro c hc
  rw [reachList]
  exact List.mem_dedup.2 (List.mem_append_left _ hc)

theorem reachList_mono (m : Maze) : ∀ {j k : ℕ}, j ≤ k →
    reachList m j ⊆ reachList m k := by
  intro j k hjk
  induction k with
  | zero => rw [Nat.le_zero.1 hjk]; exact fun c h => h
  | succ k ih =>
    rcases Nat.lt_or_ge j (k + 1) with h | h
    · exact (ih (by omega)).trans (reachList_subset_succ m k)
    · rw [(by omega : j = k + 1)]; exact fun c h => h

theorem reachIn_mem_reachList {m : Maze} : ∀ {n : ℕ} {c : Cell},
    ReachIn m n c → c ∈ reachList m n := by
  intro n c h
  induction h with
  | zero => exact List.mem_singleton.2 rfl
  | @succ n c a s hr hmem ih =>
    rw [reachList]
    refine List.mem_dedup.2 (List.mem_append_right _ ?_)
    refine List.mem_flatMap.2 ⟨c, ih, ?_⟩
    exact List.mem_map.2 ⟨(a, s), hmem, rfl⟩

theorem mem_reachList_reach {m : Maze} : ∀ {n : ℕ} {c : Cell},
    c ∈ reachList m n → Reach m c := by
  intro n
  induction n with
  | zero =>
    intro c hc
    rcases List.mem_singleton.1 hc with rfl
    exact ⟨0, ReachIn.zero⟩
  | succ n ih =>
    intro c hc
    rw [reachList] at hc
    rcases List.mem_append.1 (List.mem_dedup.1 hc) with h | h
    · exact ih h
    · obtain ⟨c', hc', hmap⟩ := List.mem_flatMap.1 h
      obtain ⟨⟨a, s⟩, hmem, rfl⟩ := List.mem_map.1 hmap
      obtain ⟨k, hk⟩ := ih hc'
      exact ⟨k + 1, ReachIn.succ hk hmem⟩

/-- To refute reachability it is enough to exhibit a finite set of cells
that contains the start, is closed under `neighbors`, and misses the
target.  Used to discharge unreachability hypotheses on concrete grids. -/
theorem not_reach_of_closed {m : Maze} (S : Finset Cell)
    (hstart : m.start ∈ S)
    (hclosed : ∀ c ∈ S, ∀ p ∈ m.neighbors c, p.2 ∈ S)
    {t : Cell} (ht : t ∉ S) : ¬ Reach m t := by
  have hall : ∀ (n : ℕ) (c : Cell), ReachIn m n c → c ∈ S := by
    intro n c hn
    induction hn with
    | zero => exact hstart
    | @succ n c a s hr hmem ih => exact hclosed c ih (a, s) hmem
  rintro ⟨n, hn⟩
  exact ht (hall n t hn)

theorem iterState_succ_next {m : Maze} {d : Discipline} {k : ℕ} {st stk : SearchState}
    (h : iterState m d (k + 1) st = some stk) :
    ∃ st', solveStep m d st = .next st' ∧ iterState m d k st' = some stk := by
  rw [iterState] at h
  cases hs : solveStep m d st with
  | done o st'' => rw [hs] at h; cases h
  | next st'' => rw [hs] at h; exact ⟨st'', rfl, h⟩

theorem iterState_one_next {m : Maze} {d : Discipline} {st st' : SearchState}
    (h : iterState m d 1 st = some st') : solveStep m d st = .next st' := by
  obtain ⟨st'', hs, h0⟩ := iterState_succ_next (k := 0) h
  rw [iterState] at h0
  cases h0
  exact hs

/-! ## Concrete grids used as witnesses and counterexamples -/

/-- A 3×3 grid with a single wall at the centre: start `(0,0)`, goal `(2,0)`.
The direct route down costs 2 moves, but the stack-discipline search first
follows the detour to the right and around the wall, recording 6 moves. -/
def mzDetour : Maze :=
  { height := 3, width := 3,
    walls := [[false, false, false], [false, true, false], [false, false, false]],
    start := (0, 0), goal := (2, 0) }

/-- A 2×2 grid whose goal is walled off from the start. -/
def mzEnclosed : Maze :=
  { height := 2, width := 2,
    walls := [[false, true], [true, false]],
    start := (0, 0), goal := (1, 1) }

/-! ## The claims -/

/-- **C1, counterexample.**  The claim says `solve` takes the frontier
discipline as a parameter and that, run with the queue discipline, it
returns a minimum-move solution.  In the source, `solve` takes no such
parameter: it hard-codes `StackFrontier()`.  On `mzDetour` the code's
`solve` records a 6-move solution although a 2-move path exists and no
shorter one does, so the solution the code computes is not minimal. -/
theorem solve_stack_not_minimal_cex :
    Option.map Prod.fst mzDetour.solve
      = some (.success (["right", "right", "down", "down", "left", "left"],
                        [(0, 1), (0, 2), (1, 2), (2, 2), (2, 1), (2, 0)])) ∧
    ReachIn mzDetour 2 mzDetour.goal ∧
    (∀ j < 2, ¬ ReachIn mzDetour j mzDetour.goal) ∧
    (["right", "right", "down", "down", "left", "left"] : List String).length ≠ 2 := by
  refine ⟨by decide, ?_, ?_, by decide⟩
  · have hstep1 : ("down", ((1 : ℤ), (0 : ℤ))) ∈ mzDetour.neighbors (0, 0) := by decide
    have hstep2 : ("down", ((2 : ℤ), (0 : ℤ))) ∈ mzDetour.neighbors (1, 0) := by decide
    exact ReachIn.succ (ReachIn.succ ReachIn.zero hstep1) hstep2
  · intro j hj hr
    have h1 : mzDetour.goal ∈ reachList mzDetour 1 :=
      reachList_mono mzDetour (by omega) (reachIn_mem_reachList hr)
    exact absurd h1 (by decide)

/-- **C1, amended.**  `solve` takes no frontier-discipline parameter and
always searches with the stack discipline; for every grid with a path from
start to goal it records a solution whose number of moves is at least — but
not necessarily equal to — the minimum number of moves from start to goal. -/
theorem solve_success_length_ge_min {m : Maze} (h : Reach m m.goal) :
    ∃ acts cells stF, m.solve = some (.success (acts, cells), stF) ∧
      ReachIn m acts.length m.goal ∧
      (∀ k : ℕ, (∀ j < k, ¬ ReachIn m j m.goal) → k ≤ acts.length) := by
  obtain ⟨nd, stF, hr, hvalid, hgoal⟩ := solveWith_success_node (d := .stack) h
  have hlen : ReachIn m (collectActions nd).reverse.length m.goal := by
    rw [List.length_reverse]
    exact hgoal ▸ validNode_reachIn hvalid
  refine ⟨(collectActions nd).reverse, (collectCells nd).reverse, stF, hr, hlen, ?_⟩
  intro k hk
  by_contra hlt
  push_neg at hlt
  exact hk _ hlt hlen

theorem solve_success_length_ge_min_witness :
    Reach mzDetour mzDetour.goal ∧
    (∃ acts cells stF, mzDetour.solve = some (.success (acts, cells), stF) ∧
      ReachIn mzDetour acts.length mzDetour.goal ∧
      (∀ k : ℕ, (∀ j < k, ¬ ReachIn mzDetour j mzDetour.goal) → k ≤ acts.length)) := by
  have hstep1 : ("down", ((1 : ℤ), (0 : ℤ))) ∈ mzDetour.neighbors (0, 0) := by decide
  have hstep2 : ("down", ((2 : ℤ), (0 : ℤ))) ∈ mzDetour.neighbors (1, 0) := by decide
  have h2 : Reach mzDetour mzDetour.goal :=
    ⟨2, ReachIn.succ (ReachIn.succ ReachIn.zero hstep1) hstep2⟩
  exact ⟨h2, solve_success_length_ge_min h2⟩

/-- **C2.**  On every well-formed grid with a path from start to goal,
`solve` records a solution in which consecutive cells are `neighbors`
transitions, the cell list starts at a cell adjacent to the start (the start
itself excluded), ends at the goal, and the action list has the same length
as the cell list. -/
theorem solve_success_valid_path {m : Maze} (hwf : WellFormed m) (h : Reach m m.goal) :
    ∃ acts cells stF, m.solve = some (.success (acts, cells), stF) ∧
      acts.length = cells.length ∧
      ValidPath m m.start cells ∧
      cells.getLastD m.start = m.goal ∧
      (∃ a c rest, cells = c :: rest ∧ (a, c) ∈ m.neighbors m.start) := by
  obtain ⟨nd, stF, hr, hvalid, hgoal⟩ := solveWith_success_node (d := .stack) h
  obtain ⟨hvp, hlast⟩ := validNode_path hvalid
  obtain ⟨-, -, -, -, -, -, -, -, hne⟩ := hwf
  refine ⟨_, _, stF, hr, by simp [collect_length nd], hvp, hgoal ▸ hlast, ?_⟩
  cases hc : (collectCells nd).reverse with
  | nil =>
    exfalso
    rw [hc] at hlast
    exact hne (hlast.trans hgoal)
  | cons c restc =>
    rw [hc] at hvp
    obtain ⟨⟨a, ha⟩, -⟩ := hvp
    exact ⟨a, c, restc, rfl, ha⟩

theorem solve_success_valid_path_witness :
    WellFormed mzDetour ∧ Reach mzDetour mzDetour.goal ∧
    (∃ acts cells stF, mzDetour.solve = some (.success (acts, cells), stF) ∧
      acts.length = cells.length ∧
      ValidPath mzDetour mzDetour.start cells ∧
      cells.getLastD mzDetour.start = mzDetour.goal ∧
      (∃ a c rest, cells = c :: rest ∧ (a, c) ∈ mzDetour.neighbors mzDetour.start)) := by
  have hstep1 : ("down", ((1 : ℤ), (0 : ℤ))) ∈ mzDetour.neighbors (0, 0) := by decide
  have hstep2 : ("down", ((2 : ℤ), (0 : ℤ))) ∈ mzDetour.neighbors (1, 0) := by decide
  have h2 : Reach mzDetour mzDetour.goal :=
    ⟨2, ReachIn.succ (ReachIn.succ ReachIn.zero hstep1) hstep2⟩
  exact ⟨by decide, h2, solve_success_valid_path (by decide) h2⟩

/-- **C3.**  On every finite grid, the search loop terminates for either
frontier discipline — within `height * width + 2` iterations — and ends
either recording a solution or failing with the no-solution outcome. -/
theorem solveWith_terminates (m : Maze) (d : Discipline) :
    (∃ sol stF, m.solveWith d = some (.success sol, stF)) ∨
    (∃ stF, m.solveWith d = some (.failure, stF)) := by
  obtain ⟨o, stF, hr⟩ := solveWith_isSome m d
  cases o with
  | failure => exact Or.inr ⟨stF, hr⟩
  | success sol => exact Or.inl ⟨sol, stF, hr⟩

/-- **C4.**  On every grid whose goal is unreachable from the start, the
search (either discipline) fails with the no-solution outcome, and the
exploration counter then equals the number of cells reachable from the
start, the start itself included. -/
theorem solveWith_unreachable_spec {m : Maze} (d : Discipline) (h : ¬ Reach m m.goal) :
    ∃ stF, m.solveWith d = some (.failure, stF) ∧
      stF.numExplored = stF.explored.card ∧
      (∀ c : Cell, c ∈ stF.explored ↔ Reach m c) ∧
      m.start ∈ stF.explored := by
  obtain ⟨stF, hr, -, hcount, hiff, hstart⟩ := solveWith_failure_node h
  exact ⟨stF, hr, hcount, hiff, hstart⟩

theorem solveWith_unreachable_spec_witness :
    (¬ Reach mzEnclosed mzEnclosed.goal) ∧
    (∃ stF, mzEnclosed.solveWith .stack = some (.failure, stF) ∧
      stF.numExplored = stF.explored.card ∧
      (∀ c : Cell, c ∈ stF.explored ↔ Reach mzEnclosed c) ∧
      mzEnclosed.start ∈ stF.explored) := by
  have hnr : ¬ Reach mzEnclosed mzEnclosed.goal :=
    not_reach_of_closed {((0 : ℤ), (0 : ℤ))} (by decide) (by decide) (by decide)
  exact ⟨hnr, solveWith_unreachable_spec .stack hnr⟩

/-- **C5.**  For every in-bounds cell, `neighbors` returns exactly the
cardinal moves whose destination is in `[0, height) × [0, width)` and not a
wall, and the returned pairs appear in the fixed order up, down, left,
right. -/
theorem neighbors_spec {m : Maze} {r c : ℤ} (h : m.InBounds (r, c)) :
    (∀ (a : String) (dest : Cell),
      (a, dest) ∈ m.neighbors (r, c) ↔
        ((a = "up" ∧ dest = (r - 1, c)) ∨ (a = "down" ∧ dest = (r + 1, c)) ∨
         (a = "left" ∧ dest = (r, c - 1)) ∨ (a = "right" ∧ dest = (r, c + 1))) ∧
        m.InBounds dest ∧ m.wallAt dest = false) ∧
    (m.neighbors (r, c)).Sublist
      [("up", (r - 1, c)), ("down", (r + 1, c)), ("left", (r, c - 1)), ("right", (r, c + 1))] := by
  constructor
  · intro a dest
    rw [mem_neighbors_iff]
    simp [candidates, Prod.ext_iff]
  · exact List.filter_sublist _

theorem neighbors_spec_witness :
    mzDetour.InBounds (0, 0) ∧
    ((∀ (a : String) (dest : Cell),
      (a, dest) ∈ mzDetour.neighbors (0, 0) ↔
        ((a = "up" ∧ dest = (0 - 1, 0)) ∨ (a = "down" ∧ dest = (0 + 1, 0)) ∨
         (a = "left" ∧ dest = (0, 0 - 1)) ∨ (a = "right" ∧ dest = (0, 0 + 1))) ∧
        mzDetour.InBounds dest ∧ mzDetour.wallAt dest = false) ∧
    (mzDetour.neighbors (0, 0)).Sublist
      [("up", (0 - 1, 0)), ("down", (0 + 1, 0)), ("left", (0, 0 - 1)), ("right", (0, 0 + 1))]) :=
  ⟨by decide, neighbors_spec (by decide)⟩

/-- **C6.**  After every completed loop iteration, no two frontier nodes
share a state, no frontier state is in the explored set, and consequently a
state removed from the frontier at one iteration can never be the state
removed at a later iteration of the same run. -/
theorem search_iteration_invariant (m : Maze) (d : Discipline) (k : ℕ)
    (st : SearchState) (h : stateAfterIters m d k = some st) :
    (frontierStates st.frontier).Nodup ∧
    (∀ n ∈ st.frontier, n.state ∉ st.explored) ∧
    (∀ j, j < k → ∀ stj, stateAfterIters m d j = some stj →
      ∀ nj restj nk restk,
        removeFrontier d stj.frontier = .ok (nj, restj) →
        removeFrontier d st.frontier = .ok (nk, restk) →
        nj.state ≠ nk.state) := by
  unfold stateAfterIters at h
  have hinv : SearchInv m st := iterState_inv (searchInv_init m) h
  refine ⟨hinv.nodup, hinv.disj, ?_⟩
  intro j hj stj hstj nj restj nk restk hrmj hrmk
  unfold stateAfterIters at hstj
  obtain ⟨stj1, hstj1⟩ := iterState_mono h (j + 1) (by omega)
  have h1 : iterState m d 1 stj = some stj1 := by
    have hadd := iterState_add m d j 1 (initState m)
    rw [hstj1, hstj] at hadd
    exact (Option.some_bind _ _ ▸ hadd).symm
  have hstep : solveStep m d stj = .next stj1 := iterState_one_next h1
  have hpop : nj.state ∈ stj1.explored := solveStep_popped_explored hstep hrmj
  have hmono : stj1.explored ⊆ st.explored := by
    have hadd := iterState_add m d (j + 1) (k - (j + 1)) (initState m)
    rw [(by omega : j + 1 + (k - (j + 1)) = k), h, hstj1] at hadd
    exact iterState_explored_subset (Option.some_bind _ _ ▸ hadd).symm
  have hnk_not : nk.state ∉ st.explored := hinv.disj nk (removeFrontier_mem hrmk)
  intro heq
  exact hnk_not (heq ▸ hmono hpop)

/-- The search state of `mzDetour` (stack discipline) after two loop
iterations: `(0,0)` and `(0,1)` have been expanded, and the frontier holds
nodes for `(1,0)` and `(0,2)`. -/
def mzDetourStep2 : SearchState :=
  { frontier := [Node.child "down" (1, 0) (Node.root (0, 0)),
                 Node.child "right" (0, 2) (Node.child "right" (0, 1) (Node.root (0, 0)))],
    explored := insert ((0 : ℤ), (1 : ℤ)) (insert ((0 : ℤ), (0 : ℤ)) (∅ : Finset Cell)),
    numExplored := 2 }

theorem search_iteration_invariant_witness :
    stateAfterIters mzDetour .stack 2 = some mzDetourStep2 ∧
    ((frontierStates mzDetourStep2.frontier).Nodup ∧
    (∀ n ∈ mzDetourStep2.frontier, n.state ∉ mzDetourStep2.explored) ∧
    (∀ j, j < 2 → ∀ stj, stateAfterIters mzDetour .stack j = some stj →
      ∀ nj restj nk restk,
        removeFrontier .stack stj.frontier = .ok (nj, restj) →
        removeFrontier .stack mzDetourStep2.frontier = .ok (nk, restk) →
        nj.state ≠ nk.state)) := by
  have hst : stateAfterIters mzDetour .stack 2 = some mzDetourStep2 := by rfl
  exact ⟨hst, search_iteration_invariant mzDetour .stack 2 mzDetourStep2 hst⟩

/-- **C7.**  Construction from a textual grid description fails — producing
no grid — exactly when the text does not contain exactly one start marker
`'A'` or not exactly one goal marker `'B'`. -/
theorem mazeOfContents_error_iff (cs : List Char) :
    (∃ e, mazeOfContents cs = .error e) ↔ (cs.count 'A' ≠ 1 ∨ cs.count 'B' ≠ 1) := by
  unfold mazeOfContents
  by_cases hA : cs.count 'A' ≠ 1
  · simp [hA]
  · by_cases hB : cs.count 'B' ≠ 1
    · simp [hA, hB]
    · simp [hA, hB]

/-- **C8.**  The queue-discipline frontier is first-in-first-out: after
adding `n1`, `n2`, `n3` to an empty frontier, successive removals yield
`n1`, then `n2`, then `n3`; in general removal returns the earliest-added
node and keeps the rest in their relative order. -/
theorem queue_frontier_fifo (n1 n2 n3 : Node) :
    removeFrontier .queue (addNode (addNode (addNode [] n1) n2) n3) = .ok (n1, [n2, n3]) ∧
    removeFrontier .queue [n2, n3] = .ok (n2, [n3]) ∧
    removeFrontier .queue [n3] = .ok (n3, []) ∧
    (∀ (n : Node) (ns : List Node), removeFrontier .queue (n :: ns) = .ok (n, ns)) :=
  ⟨rfl, rfl, rfl, fun _ _ => rfl⟩

/-- **C9.**  `remove()` on an empty frontier fails with the empty-frontier
error for either discipline. -/
theorem removeFrontier_empty_error (d : Discipline) :
    removeFrontier d [] = .error "empty frontier" := by
  cases d <;> rfl

/-- **C10.**  When a source row is shorter than the declared grid width,
every missing column position of that row is recorded in the wall table as
an open (non-wall) cell. -/
theorem mazeOfContents_short_row_open {cs : List Char} {pm : ParsedMaze}
    (hok : mazeOfContents cs = .ok pm) {i : ℕ} {line : List Char}
    (hline : (splitlines cs).get? i = some line) {j : ℕ}
    (hshort : line.length ≤ j) (hj : j < pm.width) :
    ∃ row, pm.walls.get? i = some row ∧ row.get? j = some false := by
  unfold mazeOfContents at hok
  by_cases hA : cs.count 'A' ≠ 1
  · simp [hA] at hok
  · by_cases hB : cs.count 'B' ≠ 1
    · simp [hA, hB] at hok
    · simp only [hA, hB, if_neg, if_false, reduceIte, Except.ok.injEq] at hok
      subst hok
      refine ⟨buildRow (((splitlines cs).headD []).length) line, ?_, ?_⟩
      · rw [List.get?_map, hline]; rfl
      · have hjw : j < ((splitlines cs).headD []).length := hj
        unfold buildRow
        rw [List.get?_map, List.get?_range hjw]
        have hnone : line.get? j = none := List.get?_eq_none.2 hshort
        show some (((line.get? j).map isWallChar).getD false) = some false
        rw [hnone]
        rfl

/-- A grid description whose second row is shorter than the declared
width: `"AB"` then `"#"`. -/
def ragContents : List Char := "AB\n#\n".data

/-- The short second row of `ragContents`. -/
def ragRow : List Char := "#".data

/-- The parse result of `ragContents`. -/
def ragParsed : ParsedMaze :=
  { height := 2, width := 2, walls := [[false, false], [true, false]],
    start? := some (0, 0), goal? := some (0, 1) }

theorem mazeOfContents_short_row_open_witness :
    mazeOfContents ragContents = .ok ragParsed ∧
    (splitlines ragContents).get? 1 = some ragRow ∧
    ragRow.length ≤ 1 ∧
    1 < ragParsed.width ∧
    (∃ row, ragParsed.walls.get? 1 = some row ∧ row.get? 1 = some false) := by
  have hok : mazeOfContents ragContents = .ok ragParsed := by rfl
  have hline : (splitlines ragContents).get? 1 = some ragRow := by rfl
  have hshort : ragRow.length ≤ 1 := by decide
  have hj : 1 < ragParsed.width := by decide
  exact ⟨hok, hline, hshort, hj, mazeOfContents_short_row_open hok hline hshort hj⟩
